import Mathlib

/-!
Verification of the transcript-reconciliation core of the transcript-toolkit
repository (`audio_transcriber/convert_json_transcript.py`, function
`process_transcript`).  The Python function is shallowly embedded below:
time strings become an explicit four-valued `TimeVal` (missing key, present
but empty, present but unparseable, parseable rational), the JSON payload
becomes structured variants mirroring the shapes the code distinguishes, and
each processing stage (schema normalisation, word-to-speaker matching, block
assembly, fallbacks) is a Lean function following the source line by line.
-/

namespace TranscriptToolkit

/-- A time field of an item or segment as the Python code observes it:
the key may be missing, present but the empty string, present but not
parseable as a float, or a parseable number. -/
inductive TimeVal
  | missing
  | empty
  | junk
  | val (q : ℚ)
  deriving DecidableEq

/-- Passes the Python `not all([start_time_str, end_time_str])` truthiness
check: present and non-empty. -/
def tvPresent : TimeVal → Bool
  | .missing => false
  | .empty => false
  | .junk => true
  | .val _ => true

/-- `float(...)` on the field: succeeds only on a parseable value
(`ValueError` otherwise, which the code catches with `continue`). -/
def tvParse : TimeVal → Option ℚ
  | .val q => some q
  | _ => none

/-- Python truthiness of an optional string (`None` and `""` are falsy). -/
def truthyS : Option String → Bool
  | none => false
  | some s => s != ""

/-- A word item from `results['items']`: `type`, the contents of its
`alternatives` list, optional timing and optional `speaker_label`. -/
structure WordItem where
  type : String
  alternatives : List String
  start_time : TimeVal
  end_time : TimeVal
  speaker_label : Option String
  deriving DecidableEq

/-- A diarization segment as it appears under `speaker_labels`. -/
structure Segment where
  speaker_label : Option String
  start_time : TimeVal
  end_time : TimeVal
  deriving DecidableEq

/-- First element of the list-shaped `speaker_labels` variant
(`speakers` count and `segments`). -/
structure SLElem where
  speakers : Option Nat
  segments : Option (List Segment)
  deriving DecidableEq

/-- The shapes of `results['speaker_labels']` the code distinguishes:
a (possibly empty) list, a dictionary with optional `speakers_count`
and `segments`, or some other JSON value (neither branch fires). -/
inductive SpeakerLabels
  | listFmt (elems : List SLElem)
  | dictFmt (speakers_count : Option Nat) (segments : Option (List Segment))
  | otherFmt
  deriving DecidableEq

/-- The `results` object: optional `speaker_labels` and the item list
(the code never distinguishes a missing `items` key from an empty list). -/
structure Results where
  speaker_labels : Option SpeakerLabels
  items : List WordItem
  deriving DecidableEq

/-- The payload handed to `process_transcript`: either falsy / missing the
`results` key, or carrying a `results` object. -/
inductive Payload
  | noResults
  | withResults (results : Results)
  deriving DecidableEq

/-- The messages `process_transcript` prints, in order of appearance in the
source. `errInvalidPayload` is the InvalidPayload report of the spec. -/
inductive Msg
  | errInvalidPayload
  | warnDeduced
  | warnReconstruct
  | errAccess
  | warnNoLabels
  | errNoSpeakers
  | warnSingleBlock
  | warnFallback
  | warnNoItems
  deriving DecidableEq

/-- Distinct `speaker_label` values across segments (a Python set of the
labels present, including empty strings — presence, not truthiness). -/
def segLabelsCount (segs : List Segment) : Nat :=
  ((segs.filterMap (fun s => s.speaker_label)).dedup).length

/-- Distinct `speaker_label` values across all items (presence check). -/
def itemLabelsCount (items : List WordItem) : Nat :=
  ((items.filterMap (fun it => it.speaker_label)).dedup).length

/-- Best-effort reconstruction of segments from labelled pronunciation items
(source lines 221-236): consecutive same-speaker items are grouped; a missing
`start_time`/`end_time` key raises `KeyError` (modelled as `.error`), which
the caller catches. The same-speaker branch touches only `end_time`. -/
def reconstructSegs : List WordItem → Option Segment → List Segment →
    Except Unit (List Segment)
  | [], cur, acc => .ok (acc ++ cur.toList)
  | it :: rest, cur, acc =>
    if it.type = "pronunciation" ∧ it.speaker_label.isSome then
      match cur with
      | some c =>
        if c.speaker_label = it.speaker_label then
          if it.end_time = .missing then .error ()
          else reconstructSegs rest (some { c with end_time := it.end_time }) acc
        else
          if it.start_time = .missing ∨ it.end_time = .missing then .error ()
          else reconstructSegs rest
            (some ⟨it.speaker_label, it.start_time, it.end_time⟩) (acc ++ [c])
      | none =>
        if it.start_time = .missing ∨ it.end_time = .missing then .error ()
        else reconstructSegs rest
          (some ⟨it.speaker_label, it.start_time, it.end_time⟩) acc
    else reconstructSegs rest cur acc

/-- The per-shape extraction of (`num_speakers`, `speaker_segments`)
(source lines 193-203). -/
def rawFormat : Option SpeakerLabels → Nat × List Segment
  | some (.listFmt []) => (0, [])
  | some (.listFmt (e :: _)) => (e.speakers.getD 0, e.segments.getD [])
  | some (.dictFmt cnt segs) => (cnt.getD 0, segs.getD [])
  | some .otherFmt => (0, [])
  | none => (0, [])

/-- Source lines 205-208: if the count was not explicit, deduce it from the
distinct segment labels. -/
def deriveCount (n : Nat) (segs : List Segment) : Nat :=
  if n = 0 ∧ segs ≠ [] then segLabelsCount segs else n

/-- Result of the speaker-count / segment determination phase:
`state = none` is the fatal "Could not determine number of speakers"
early return; otherwise the pair (`num_speakers`, `speaker_segments`). -/
structure NormOut where
  state : Option (Nat × List Segment)
  msgs : List Msg
  deriving DecidableEq

/-- Schema normalisation (source lines 191-249): shape detection, count
derivation, the deduce-from-items fallback with segment reconstruction
(whose `KeyError` is caught, forcing `num_speakers = 1` and leaving the
segment list empty), and the fatal no-speaker-info return. -/
def normalize (r : Results) : NormOut :=
  let raw := rawFormat r.speaker_labels
  let num := deriveCount raw.1 raw.2
  let segs := raw.2
  if num = 0 ∧ r.items ≠ [] then
    let ic := itemLabelsCount r.items
    if ic > 0 then
      if segs = [] then
        match reconstructSegs r.items none [] with
        | .ok ts => ⟨some (ic, ts), [.warnDeduced, .warnReconstruct]⟩
        | .error _ => ⟨some (1, []), [.warnDeduced, .warnReconstruct, .errAccess]⟩
      else ⟨some (ic, segs), [.warnDeduced]⟩
    else ⟨some (1, segs), [.warnNoLabels]⟩
  else if num = 0 then ⟨none, [.errNoSpeakers]⟩
  else ⟨some (num, segs), []⟩

/-- The speaker-label → display-name map, in insertion order. -/
abbrev NameMap := List (String × String)

/-- `speaker_names.get(k)`. -/
def lookupName (m : NameMap) (k : String) : Option String :=
  (m.find? (fun p => p.1 == k)).map (fun p => p.2)

/-- Stable insertion into a list sorted by the supplied boolean order. -/
def insertLeB {α : Type} (le : α → α → Bool) (x : α) : List α → List α
  | [] => [x]
  | y :: ys => if le x y then x :: y :: ys else y :: insertLeB le x ys

/-- Stable insertion sort (Python's `sorted` / `list.sort` are stable). -/
def sortLeB {α : Type} (le : α → α → Bool) (l : List α) : List α :=
  l.foldr (insertLeB le) []

/-- The distinct truthy labels the naming prompt offers (source lines
255-259): from segments when any exist, otherwise from items. -/
def presentLabels (segs : List Segment) (items : List WordItem) : List String :=
  if segs ≠ [] then
    (segs.filterMap (fun s =>
      if truthyS s.speaker_label then s.speaker_label else none)).dedup
  else if items ≠ [] then
    (items.filterMap (fun it =>
      if truthyS it.speaker_label then it.speaker_label else none)).dedup
  else []

/-- Speaker-name resolution (source lines 252-282). A supplied map is used
as-is; with none supplied, more than one speaker prompts interactively (the
collaborator `ask` supplies each name, per §4.4 of the spec), and at most
one speaker gets the default map `[(label, "Speaker")]` keyed by the first
truthy segment label (default `spk_0`). -/
def resolveNames (names? : Option NameMap) (ask : String → String) (num : Nat)
    (segs : List Segment) (items : List WordItem) : NameMap :=
  match names? with
  | some m => m
  | none =>
    if num > 1 then
      (sortLeB (fun a b => a < b) (presentLabels segs items)).map
        (fun l => (l, ask l))
    else
      let lbl := ((segs.filterMap (fun s =>
        if truthyS s.speaker_label then s.speaker_label else none)).head?).getD
        "spk_0"
      [(lbl, "Speaker")]

/-- `speaker_time_ranges`: insertion-ordered map from truthy speaker label
to its list of parsed (start, end) ranges. -/
abbrev RangeMap := List (String × List (ℚ × ℚ))

/-- Append a range to a label's entry, creating the entry at the tail on the
label's first occurrence (Python dict insertion order). -/
def addRange (l : String) (r : ℚ × ℚ) : RangeMap → RangeMap
  | [] => [(l, [r])]
  | (k, rs) :: rest =>
    if k = l then (k, rs ++ [r]) :: rest else (k, rs) :: addRange l r rest

/-- Build `speaker_time_ranges` (source lines 304-325): skip segments with a
falsy label, a missing/empty time, or an unparseable time. -/
def buildRanges (segs : List Segment) : RangeMap :=
  segs.foldl (fun acc seg =>
    if truthyS seg.speaker_label then
      if tvPresent seg.start_time ∧ tvPresent seg.end_time then
        match tvParse seg.start_time, tvParse seg.end_time, seg.speaker_label with
        | some s, some e, some lbl => addRange lbl (s, e) acc
        | _, _, _ => acc
      else acc
    else acc) []

/-- `start <= m <= end`. -/
def midContains (m : ℚ) (r : ℚ × ℚ) : Bool :=
  decide (r.1 ≤ m ∧ m ≤ r.2)

/-- Tier-2 containment scan (source lines 353-360): first speaker in
iteration order one of whose ranges contains the midpoint. -/
def findContaining (m : ℚ) : RangeMap → Option String
  | [] => none
  | (s, rl) :: rest =>
    if rl.any (midContains m) then some s else findContaining m rest

/-- Distance from the midpoint to a range (source lines 367-372). -/
def distTo (m : ℚ) (r : ℚ × ℚ) : ℚ :=
  if m < r.1 then r.1 - m else if m > r.2 then m - r.2 else 0

/-- Inner loop of the nearest-segment fallback over one speaker's ranges:
strict improvement updates the running (distance, speaker) best, a `none`
accumulator standing for the initial `float('inf')`. -/
def nearInner (m : ℚ) (s : String) (acc : Option (ℚ × String))
    (rl : List (ℚ × ℚ)) : Option (ℚ × String) :=
  rl.foldl (fun a r =>
    match a with
    | none => some (distTo m r, s)
    | some (dm, sm) =>
      if distTo m r < dm then some (distTo m r, s) else some (dm, sm)) acc

/-- Outer loop of the nearest-segment fallback (source lines 363-376). -/
def nearFold (m : ℚ) : Option (ℚ × String) → RangeMap → Option (ℚ × String)
  | acc, [] => acc
  | acc, (s, rl) :: rest => nearFold m (nearInner m s acc rl) rest

/-- Tier 3: the speaker the nearest-segment fallback selects. -/
def nearestSpeaker (m : ℚ) (ranges : RangeMap) : Option String :=
  (nearFold m none ranges).map (fun p => p.2)

/-- Fold of `min` over the distances of a range list from an initial bound
(the shape taken by the running `min_distance` of the fallback loop). -/
def dminFold (m : ℚ) (d : ℚ) (rl : List (ℚ × ℚ)) : ℚ :=
  rl.foldl (fun a r => min a (distTo m r)) d

/-- A speaker's minimum distance from the midpoint over its range list
(`0` backstop for an empty list, which `buildRanges` never produces). -/
def sDist (m : ℚ) : List (ℚ × ℚ) → ℚ
  | [] => 0
  | r :: t => dminFold m (distTo m r) t

/-- Reference evaluation of the fallback loop: the best (distance, speaker)
pair threaded through the remaining speakers, updated on strict
improvement. -/
def runMin (m : ℚ) (d0 : ℚ) (s0 : String) : RangeMap → ℚ × String
  | [] => (d0, s0)
  | p :: rest =>
    if sDist m p.2 < d0 then runMin m (sDist m p.2) p.1 rest
    else runMin m d0 s0 rest

/-- Following the spec's words for tier 3 ("assign to the speaker with
globally minimum distance; ties broken by first speaker encountered in
iteration order"): the first speaker whose minimum segment distance is at
most that of every remaining speaker — the first speaker attaining the
globally minimal distance. -/
def firstMinSpeaker (m : ℚ) : RangeMap → Option String
  | [] => none
  | p :: rest =>
    if rest.all (fun q => decide (sDist m p.2 ≤ sDist m q.2)) then some p.1
    else firstMinSpeaker m rest

/-- The word-to-speaker matcher for one item (source lines 329-386):
skip non-pronunciation or alternatives-less items, skip items whose timing
is missing/empty/unparseable, then direct label, containment, nearest
fallback; returns the (speaker, content) attribution or `none` (dropped). -/
def matchItem (ranges : RangeMap) (it : WordItem) : Option (String × String) :=
  if it.type = "pronunciation" then
    match it.alternatives with
    | [] => none
    | c :: _ =>
      if tvPresent it.start_time ∧ tvPresent it.end_time then
        match tvParse it.start_time, tvParse it.end_time with
        | some s, some e =>
          let m := (s + e) / 2
          let t1 : Option String :=
            if truthyS it.speaker_label then it.speaker_label
            else findContaining m ranges
          let t2 : Option String :=
            match t1 with
            | some x => some x
            | none => if ranges ≠ [] then nearestSpeaker m ranges else none
          t2.map (fun sp => (sp, c))
        | _, _ => none
      else none
  else none

/-- Append a word to a speaker's text, creating the entry at the tail on
first occurrence (`speaker_texts`, Python dict insertion order). -/
def addText (sp c : String) : List (String × List String) →
    List (String × List String)
  | [] => [(sp, [c])]
  | (k, ws) :: rest =>
    if k = sp then (k, ws ++ [c]) :: rest else (k, ws) :: addText sp c rest

/-- `speaker_texts` after matching every item (source lines 328-386). -/
def speakerTexts (ranges : RangeMap) (items : List WordItem) :
    List (String × List String) :=
  items.foldl (fun acc it =>
    match matchItem ranges it with
    | some (sp, c) => addText sp c acc
    | none => acc) []

/-- `speaker_time_ranges[speaker]` when the key is present. -/
def rangesOf (ranges : RangeMap) (sp : String) : Option (List (ℚ × ℚ)) :=
  (ranges.find? (fun p => p.1 == sp)).map (fun p => p.2)

/-- `min(start for start, _ in ranges)` over a non-empty range list. -/
def earliestStart : List (ℚ × ℚ) → Option ℚ
  | [] => none
  | r :: t => some (t.foldl (fun a p => min a p.1) r.1)

/-- Comparison by the second (time) component. -/
def sndLe (a b : String × ℚ) : Prop := a.2 ≤ b.2

instance : DecidableRel sndLe := fun a b => inferInstanceAs (Decidable (a.2 ≤ b.2))

instance : IsTotal (String × ℚ) sndLe := ⟨fun a b => le_total a.2 b.2⟩

instance : IsTrans (String × ℚ) sndLe := ⟨fun _ _ _ h1 h2 => le_trans h1 h2⟩

/-- Stable sort by earliest start time (Python's `list.sort(key=...)` is a
stable sort; stable insertion sort produces the identical list). -/
def sortBySnd (l : List (String × ℚ)) : List (String × ℚ) :=
  l.insertionSort sndLe

/-- `ordered_speakers` (source lines 390-399): speakers that have text AND a
non-empty entry in `speaker_time_ranges`, paired with their earliest segment
start, sorted by it; speakers with text but no ranges are dropped here. -/
def orderedSpeakers (ranges : RangeMap) (texts : List (String × List String)) :
    List (String × ℚ) :=
  sortBySnd (texts.filterMap (fun p =>
    match rangesOf ranges p.1 with
    | some rl => (earliestStart rl).map (fun t => (p.1, t))
    | none => none))

/-- `speaker_texts[speaker]` (present whenever the speaker came from
`orderedSpeakers`, defaulting to `[]`). -/
def textsOf (texts : List (String × List String)) (sp : String) : List String :=
  ((texts.find? (fun p => p.1 == sp)).map (fun p => p.2)).getD []

/-- `' '.join(words)`. -/
def joinWords (ws : List String) : String :=
  String.intercalate " " ws

/-- Python `str.strip()`: remove whitespace from both ends (structural
implementation over the character list). -/
def pyStrip (s : String) : String :=
  ⟨((s.data.dropWhile Char.isWhitespace).reverse.dropWhile
    Char.isWhitespace).reverse⟩

/-- Emit a block per ordered speaker (source lines 402-406): display name
resolved through the map with the raw label as default, skipping speakers
whose joined text is whitespace-only. -/
def buildBlocks (names : NameMap) (texts : List (String × List String))
    (ordered : List (String × ℚ)) : List (String × List String) :=
  ordered.filterMap (fun p =>
    let nm := (lookupName names p.1).getD p.1
    let ws := textsOf texts p.1
    if pyStrip (joinWords ws) ≠ "" then some (nm, ws) else none)

/-- `''.join(transcript_parts).strip()` over blocks rendered as
`"\n{name}: {text}"`. -/
def renderBlocks (blocks : List (String × List String)) : String :=
  pyStrip (String.join (blocks.map (fun b => "\n" ++ b.1 ++ ": " ++ joinWords b.2)))

/-- The observable outcome of `process_transcript`: the messages printed,
the attribution blocks of the transcript (display name and word list), and
the returned string. -/
structure ProcOut where
  msgs : List Msg
  blocks : List (String × List String)
  text : String
  deriving DecidableEq

/-- `next(iter(speaker_names.keys()), 'spk_0')`. -/
def firstKey (m : NameMap) : String :=
  ((m.head?).map (fun p => p.1)).getD "spk_0"

/-- `speaker_names.get(first_label, "Speaker")` — the display name both the
single-speaker special case (lines 297-298) and the final fallback (lines
426-427) use. -/
def fallbackName (m : NameMap) : String :=
  (lookupName m (firstKey m)).getD "Speaker"

/-- All pronunciation words in item order (source lines 293-295 and
421-423): `alternatives[0]` of each pronunciation item with alternatives. -/
def pronWords (items : List WordItem) : List String :=
  items.filterMap (fun it =>
    if it.type = "pronunciation" then it.alternatives.head? else none)

/-- Main processing after normalisation and name resolution (source lines
284-433): the no-segments single-speaker special case, range building,
matching, block assembly, and the two terminal fallbacks. -/
def processMain (items : List WordItem) (num : Nat) (segs : List Segment)
    (names : NameMap) (msgs : List Msg) : ProcOut :=
  if segs = [] ∧ num = 1 ∧ items ≠ [] then
    if pronWords items ≠ [] then
      ⟨msgs ++ [.warnSingleBlock], [(fallbackName names, pronWords items)],
        fallbackName names ++ ": " ++ joinWords (pronWords items)⟩
    else ⟨msgs ++ [.warnSingleBlock], [], ""⟩
  else
    if speakerTexts (buildRanges segs) items ≠ [] ∧
        renderBlocks (buildBlocks names (speakerTexts (buildRanges segs) items)
          (orderedSpeakers (buildRanges segs)
            (speakerTexts (buildRanges segs) items))) ≠ "" then
      ⟨msgs,
        buildBlocks names (speakerTexts (buildRanges segs) items)
          (orderedSpeakers (buildRanges segs)
            (speakerTexts (buildRanges segs) items)),
        renderBlocks (buildBlocks names (speakerTexts (buildRanges segs) items)
          (orderedSpeakers (buildRanges segs)
            (speakerTexts (buildRanges segs) items)))⟩
    else if items ≠ [] then
      if pronWords items ≠ [] then
        ⟨msgs ++ [.warnFallback], [(fallbackName names, pronWords items)],
          fallbackName names ++ ": " ++ joinWords (pronWords items)⟩
      else ⟨msgs ++ [.warnFallback], [], ""⟩
    else ⟨msgs ++ [.warnNoItems], [], ""⟩

/-- Dispatch on the normalisation outcome. -/
def processWith (r : Results) (nout : NormOut) (names? : Option NameMap)
    (ask : String → String) : ProcOut :=
  match nout.state with
  | none => ⟨nout.msgs, [], ""⟩
  | some (num, segs) =>
    processMain r.items num segs (resolveNames names? ask num segs r.items)
      nout.msgs

/-- `process_transcript(data, speaker_names)` (source lines 171-433), with
the interactive naming collaborator passed as `ask`. -/
def process_transcript (data : Payload) (names? : Option NameMap)
    (ask : String → String) : ProcOut :=
  match data with
  | .noResults => ⟨[.errInvalidPayload], [], ""⟩
  | .withResults r => processWith r (normalize r) names? ask

/-- The item list of a payload (empty when there is no results object). -/
def itemsOf : Payload → List WordItem
  | .noResults => []
  | .withResults r => r.items

/-- Concrete test payload: two speakers, one segment and one directly
labelled item each, whose two distinct raw labels are both mapped to the
display name "Alice". -/
def c5payload : Payload :=
  .withResults
    ⟨some (.dictFmt none (some [⟨some "spk_0", .val 0, .val 1⟩,
      ⟨some "spk_1", .val 2, .val 3⟩])),
     [⟨"pronunciation", ["Hello"], .val 0, .val 1, some "spk_0"⟩,
      ⟨"pronunciation", ["Hi"], .val 2, .val 3, some "spk_1"⟩]⟩

/-- Concrete test results: one segment, and a single pronunciation item that
has no timing keys at all, so the matcher drops it and block assembly comes
up empty while items are non-empty (the global-fallback situation). -/
def c9results : Results :=
  ⟨some (.dictFmt none (some [⟨some "spk_0", .val 0, .val 1⟩])),
   [⟨"pronunciation", ["Hello"], .missing, .missing, none⟩]⟩

/-- Concrete test payload: an unlabelled pronunciation word without timing
plus a punctuation item that carries a speaker label (the label feeds the
count deduction but the punctuation content must never reach the output). -/
def c10payload : Payload :=
  .withResults
    ⟨none,
     [⟨"pronunciation", ["Hello"], .missing, .missing, none⟩,
      ⟨"punctuation", ["."], .missing, .missing, some "spk_1"⟩]⟩

/-! ### Supporting lemmas -/

theorem findContaining_cons (m : ℚ) (s : String) (rl : List (ℚ × ℚ))
    (rest : RangeMap) :
    findContaining m ((s, rl) :: rest) =
      if rl.any (midContains m) then some s else findContaining m rest := rfl

/-- If some member range of some speaker contains the midpoint and every
containing range belongs to that one speaker, the containment scan finds
exactly that speaker. -/
theorem findContaining_unique (m : ℚ) (ranges : RangeMap) (sp : String)
    (rl : List (ℚ × ℚ)) (r : ℚ × ℚ)
    (hmem : (sp, rl) ∈ ranges) (hr : r ∈ rl) (hc : midContains m r = true)
    (huniq : ∀ sp' rl' r', (sp', rl') ∈ ranges → r' ∈ rl' →
      midContains m r' = true → sp' = sp) :
    findContaining m ranges = some sp := by
  induction ranges with
  | nil => cases hmem
  | cons hd tl ih =>
    obtain ⟨s0, rl0⟩ := hd
    rw [findContaining_cons]
    by_cases hany : rl0.any (midContains m) = true
    · obtain ⟨r0, hr0, hc0⟩ := List.any_eq_true.mp hany
      rw [if_pos hany]
      exact congrArg some (huniq s0 rl0 r0 (List.mem_cons_self _ _) hr0 hc0)
    · rw [if_neg hany]
      have hmem' : (sp, rl) ∈ tl := by
        rcases List.mem_cons.mp hmem with h | h
        · exfalso
          have hrl0 : rl = rl0 := congrArg Prod.snd h
          exact hany (List.any_eq_true.mpr ⟨r, hrl0 ▸ hr, hc⟩)
        · exact h
      exact ih hmem'
        (fun sp' rl' r' h1 h2 h3 => huniq sp' rl' r' (List.mem_cons_of_mem _ h1) h2 h3)

/-- The containment scan returns the first speaker in iteration order with a
containing range: speakers listed earlier with no containing range are
skipped, the first with one wins. -/
theorem findContaining_first (m : ℚ) (pre : RangeMap) (sp : String)
    (rl : List (ℚ × ℚ)) (post : RangeMap) (r : ℚ × ℚ)
    (hr : r ∈ rl) (hc : midContains m r = true)
    (hpre : ∀ q ∈ pre, ∀ r' ∈ q.2, midContains m r' = false) :
    findContaining m (pre ++ (sp, rl) :: post) = some sp := by
  induction pre with
  | nil =>
    rw [List.nil_append, findContaining_cons,
      if_pos (List.any_eq_true.mpr ⟨r, hr, hc⟩)]
  | cons hd tl ih =>
    obtain ⟨s0, rl0⟩ := hd
    rw [List.cons_append, findContaining_cons, if_neg, ih]
    · exact fun q hq => hpre q (List.mem_cons_of_mem _ hq)
    · intro hany
      obtain ⟨r0, hr0, hc0⟩ := List.any_eq_true.mp hany
      have := hpre (s0, rl0) (List.mem_cons_self _ _) r0 hr0
      rw [this] at hc0
      cases hc0

/-- Extracting the item's parsed times from successful parses. -/
theorem tvParse_eq_val {t : TimeVal} {q : ℚ} (h : tvParse t = some q) :
    t = .val q := by
  cases t <;> simp_all [tvParse]

/-! ### C2 -/

/-- C2: if the payload lacks a `results` key entirely, `process_transcript`
reports the InvalidPayload error and returns the empty transcript with no
blocks — fatal, no fallback output, for every name map and naming
collaborator. -/
theorem C2_invalid_payload (names? : Option NameMap) (ask : String → String) :
    process_transcript .noResults names? ask =
      ⟨[Msg.errInvalidPayload], [], ""⟩ := rfl

/-! ### C1 -/

/-- C1 is false as stated: this pronunciation item carries the direct label
`spk_0` (truthy), yet the matcher drops it because its timing check
(`not all([...])` precedes the tier-1 direct-label check) fails — so an item
with a direct label but no usable timing is dropped, contradicting both
"assigns that item to that label verbatim" and "dropped only when it has no
usable timing and no direct label". -/
theorem C1_counterexample :
    truthyS (some "spk_0") = true ∧
    matchItem []
      ⟨"pronunciation", ["Hello"], .missing, .missing, some "spk_0"⟩ =
      none := by
  constructor
  · rfl
  · rfl

/-- C1 (amended): for every pronunciation WordItem with usable (parseable)
timing that itself carries a truthy `speaker_label`, the matcher assigns
that item to that label verbatim (tier 1, first match wins); but an item
whose timing is unusable is dropped silently even when it carries a direct
label — the timing check precedes the direct-label tier. -/
theorem C1_direct_label (ranges : RangeMap) (it : WordItem) (c : String)
    (cs : List String) (l : String)
    (htype : it.type = "pronunciation") (halt : it.alternatives = c :: cs)
    (hl : it.speaker_label = some l) (hlt : l ≠ "") :
    (∀ s e : ℚ, tvParse it.start_time = some s → tvParse it.end_time = some e →
      matchItem ranges it = some (l, c)) ∧
    (tvParse it.start_time = none ∨ tvParse it.end_time = none →
      matchItem ranges it = none) := by
  constructor
  · intro s e hs he
    have hst := tvParse_eq_val hs
    have het := tvParse_eq_val he
    simp [matchItem, htype, halt, hst, het, tvPresent, tvParse, truthyS, hl, hlt]
  · intro h
    cases hst : it.start_time <;> cases het : it.end_time <;>
      simp_all [matchItem, htype, halt, tvPresent, tvParse]

/-- Witness for C1: the same labelled item is assigned verbatim once it has
timing, and dropped when its timing keys are missing. -/
theorem C1_witness :
    matchItem [] ⟨"pronunciation", ["Hello"], .val 0, .val 1, some "spk_0"⟩ =
      some ("spk_0", "Hello") ∧
    matchItem []
      ⟨"pronunciation", ["Hi"], .missing, .empty, some "spk_0"⟩ = none := by
  constructor
  · exact (C1_direct_label [] ⟨"pronunciation", ["Hello"], .val 0, .val 1,
      some "spk_0"⟩ "Hello" [] "spk_0" rfl rfl rfl (by decide)).1 0 1 rfl rfl
  · exact (C1_direct_label [] ⟨"pronunciation", ["Hi"], .missing, .empty,
      some "spk_0"⟩ "Hi" [] "spk_0" rfl rfl rfl (by decide)).2 (Or.inl rfl)

/-! ### C8 -/

/-- C8: a dict-shaped `speaker_labels` carrying an explicit
`speakers_count = 2` and one with the same segments (two distinct
`speaker_label` values) but no count field both normalise to
`num_speakers = 2`, identically. -/
theorem C8_count_equivalence (segs : List Segment) (items : List WordItem)
    (h2 : segLabelsCount segs = 2) :
    (normalize ⟨some (.dictFmt (some 2) (some segs)), items⟩).state =
      some (2, segs) ∧
    (normalize ⟨some (.dictFmt none (some segs)), items⟩).state =
      some (2, segs) := by
  have hne : segs ≠ [] := by
    intro h
    rw [h] at h2
    simp [segLabelsCount] at h2
  constructor
  · simp [normalize, rawFormat, deriveCount]
  · simp [normalize, rawFormat, deriveCount, hne, h2]

/-- Witness for C8 on a concrete two-speaker segment list. -/
theorem C8_witness :
    (normalize ⟨some (.dictFmt (some 2)
        (some [⟨some "spk_0", .val 0, .val 1⟩, ⟨some "spk_1", .val 1, .val 2⟩])),
      []⟩).state =
      some (2, [⟨some "spk_0", .val 0, .val 1⟩, ⟨some "spk_1", .val 1, .val 2⟩]) ∧
    (normalize ⟨some (.dictFmt none
        (some [⟨some "spk_0", .val 0, .val 1⟩, ⟨some "spk_1", .val 1, .val 2⟩])),
      []⟩).state =
      some (2, [⟨some "spk_0", .val 0, .val 1⟩, ⟨some "spk_1", .val 1, .val 2⟩]) :=
  C8_count_equivalence
    [⟨some "spk_0", .val 0, .val 1⟩, ⟨some "spk_1", .val 1, .val 2⟩] []
    (by decide)

/-! ### C4 -/

/-- C4: a pronunciation WordItem with timing and no direct label whose
midpoint `m = (start+end)/2` falls strictly inside exactly one speaker's
segment (every segment containing `m`, even at a boundary, belongs to that
speaker) is attributed by tier-2 containment to that segment's speaker. -/
theorem C4_containment (ranges : RangeMap) (it : WordItem) (c : String)
    (cs : List String) (s e : ℚ) (sp : String) (rl : List (ℚ × ℚ)) (r : ℚ × ℚ)
    (htype : it.type = "pronunciation") (halt : it.alternatives = c :: cs)
    (hs : tvParse it.start_time = some s) (he : tvParse it.end_time = some e)
    (hnl : truthyS it.speaker_label = false)
    (hmem : (sp, rl) ∈ ranges) (hr : r ∈ rl)
    (hstrict : r.1 < (s + e) / 2 ∧ (s + e) / 2 < r.2)
    (huniq : ∀ sp' rl' r', (sp', rl') ∈ ranges → r' ∈ rl' →
      r'.1 ≤ (s + e) / 2 → (s + e) / 2 ≤ r'.2 → sp' = sp) :
    matchItem ranges it = some (sp, c) := by
  have hst := tvParse_eq_val hs
  have het := tvParse_eq_val he
  have hfc : findContaining ((s + e) / 2) ranges = some sp := by
    refine findContaining_unique _ _ _ _ r hmem hr ?_ ?_
    · simp only [midContains, decide_eq_true_eq]
      exact ⟨le_of_lt hstrict.1, le_of_lt hstrict.2⟩
    · intro sp' rl' r' h1 h2 h3
      simp only [midContains, decide_eq_true_eq] at h3
      exact huniq sp' rl' r' h1 h2 h3.1 h3.2
  simp [matchItem, htype, halt, hst, het, tvPresent, tvParse, hnl, hfc]

/-- Witness for C4: the midpoint 1/2 of a (0, 1) item lies strictly inside
speaker A's only segment. -/
theorem C4_witness :
    matchItem [("A", [((0 : ℚ), (1 : ℚ))])]
      ⟨"pronunciation", ["w"], .val 0, .val 1, none⟩ = some ("A", "w") := by
  refine C4_containment [("A", [(0, 1)])]
    ⟨"pronunciation", ["w"], .val 0, .val 1, none⟩ "w" [] 0 1 "A" [(0, 1)] (0, 1)
    rfl rfl rfl rfl rfl (List.mem_singleton.mpr rfl) (List.mem_singleton.mpr rfl)
    (by norm_num) ?_
  intro sp' rl' r' h1 _ _ _
  have := List.mem_singleton.mp h1
  exact congrArg Prod.fst this

/-! ### C7 -/

/-- C7: reconciliation is deterministic — the embedded `process_transcript`
is a pure function, so the same payload and name map give identical output —
and in the overlap case (the item's midpoint contained in a range of the
speaker at the split point, while every earlier-iterated speaker has no
containing range, later speakers unrestricted and possibly also containing
it) the matcher always assigns the first-iterated matching speaker. -/
theorem C7_deterministic (d : Payload) (n : Option NameMap)
    (a : String → String) (pre post : RangeMap) (it : WordItem) (c : String)
    (cs : List String) (s e : ℚ) (sp : String) (rl : List (ℚ × ℚ)) (r : ℚ × ℚ)
    (htype : it.type = "pronunciation") (halt : it.alternatives = c :: cs)
    (hs : tvParse it.start_time = some s) (he : tvParse it.end_time = some e)
    (hnl : truthyS it.speaker_label = false)
    (hr : r ∈ rl) (hc : midContains ((s + e) / 2) r = true)
    (hpre : ∀ q ∈ pre, ∀ r' ∈ q.2, midContains ((s + e) / 2) r' = false) :
    process_transcript d n a = process_transcript d n a ∧
    matchItem (pre ++ (sp, rl) :: post) it = some (sp, c) := by
  refine ⟨rfl, ?_⟩
  have hst := tvParse_eq_val hs
  have het := tvParse_eq_val he
  have hfc := findContaining_first ((s + e) / 2) pre sp rl post r hr hc hpre
  simp [matchItem, htype, halt, hst, het, tvPresent, tvParse, hnl, hfc]

/-- Witness for C7: segments (0, 2) of A and (1, 3) of B both contain the
midpoint 3/2; the matcher picks A, the first in iteration order. -/
theorem C7_witness :
    process_transcript .noResults none (fun _ => "") =
      process_transcript .noResults none (fun _ => "") ∧
    matchItem [("A", [((0 : ℚ), (2 : ℚ))]), ("B", [((1 : ℚ), (3 : ℚ))])]
      ⟨"pronunciation", ["w"], .val 1, .val 2, none⟩ = some ("A", "w") := by
  refine C7_deterministic .noResults none (fun _ => "") [] [("B", [(1, 3)])]
    ⟨"pronunciation", ["w"], .val 1, .val 2, none⟩ "w" [] 1 2 "A" [(0, 2)] (0, 2)
    rfl rfl rfl rfl rfl (List.mem_singleton.mpr rfl) (by norm_num [midContains])
    ?_
  intro q hq
  cases hq

/-! ### C3 -/

/-- C3 is false as stated: speaker `spk_1` has attributed words (via its
direct label) but no segments; the assembled transcript omits its block
entirely (no "Bob" block anywhere) instead of sorting it first. -/
theorem C3_counterexample :
    ("spk_1", ["Hi"]) ∈
      speakerTexts (buildRanges [⟨some "spk_0", .val 0, .val 1⟩])
        [⟨"pronunciation", ["Hello"], .val 0, .val 1, some "spk_0"⟩,
         ⟨"pronunciation", ["Hi"], .val 5, .val 6, some "spk_1"⟩] ∧
    (process_transcript (.withResults
        ⟨some (.dictFmt none (some [⟨some "spk_0", .val 0, .val 1⟩])),
         [⟨"pronunciation", ["Hello"], .val 0, .val 1, some "spk_0"⟩,
          ⟨"pronunciation", ["Hi"], .val 5, .val 6, some "spk_1"⟩]⟩)
      (some [("spk_0", "Alice"), ("spk_1", "Bob")]) (fun _ => "")).blocks =
      [("Alice", ["Hello"])] := by
  constructor
  · decide
  · decide

/-- C3 (amended): the block list follows `ordered_speakers`, which is sorted
by the earliest segment start time attributed to each speaker; but a speaker
that has attributed words and no entry in the range map is omitted from the
ordering (and hence from the assembled transcript) rather than sorted
first. -/
theorem C3_ordering (ranges : RangeMap) (texts : List (String × List String))
    (sp : String) (ws : List String)
    (_hmem : (sp, ws) ∈ texts) (hnone : rangesOf ranges sp = none) :
    List.Sorted sndLe (orderedSpeakers ranges texts) ∧
    sp ∉ (orderedSpeakers ranges texts).map Prod.fst := by
  constructor
  · exact List.sorted_insertionSort sndLe _
  · intro hmap
    rw [List.mem_map] at hmap
    obtain ⟨q, hq, hq1⟩ := hmap
    have hq' : q ∈ texts.filterMap (fun p =>
        match rangesOf ranges p.1 with
        | some rl => (earliestStart rl).map (fun t => (p.1, t))
        | none => none) :=
      (List.perm_insertionSort sndLe _).mem_iff.mp hq
    rw [List.mem_filterMap] at hq'
    obtain ⟨p, _, hfp⟩ := hq'
    cases hro : rangesOf ranges p.1 with
    | none => rw [hro] at hfp; cases hfp
    | some rl =>
      rw [hro] at hfp
      rw [Option.map_eq_some'] at hfp
      obtain ⟨t, _, hqt⟩ := hfp
      have hp1 : p.1 = sp := by rw [← hqt] at hq1; exact hq1
      rw [hp1] at hro
      rw [hro] at hnone
      cases hnone

/-- Witness for C3 (amended) at the counterexample's ranges and texts. -/
theorem C3_witness :
    List.Sorted sndLe (orderedSpeakers [("spk_0", [((0 : ℚ), (1 : ℚ))])]
      [("spk_0", ["Hello"]), ("spk_1", ["Hi"])]) ∧
    "spk_1" ∉ (orderedSpeakers [("spk_0", [((0 : ℚ), (1 : ℚ))])]
      [("spk_0", ["Hello"]), ("spk_1", ["Hi"])]).map Prod.fst :=
  C3_ordering [("spk_0", [(0, 1)])] [("spk_0", ["Hello"]), ("spk_1", ["Hi"])]
    "spk_1" ["Hi"] (by decide) (by decide)

/-! ### C5 -/

/-- C5 is false as stated: with `spk_0` and `spk_1` both mapped to the
display name "Alice", the output contains two consecutive blocks with the
same display name — adjacent blocks whose distinct raw labels share a
display name are not merged. -/
theorem C5_counterexample :
    (process_transcript c5payload
      (some [("spk_0", "Alice"), ("spk_1", "Alice")]) (fun _ => "")).blocks.map
      Prod.fst = ["Alice", "Alice"] ∧
    ¬ List.Chain' (fun a b => a ≠ b)
      ((process_transcript c5payload
        (some [("spk_0", "Alice"), ("spk_1", "Alice")]) (fun _ => "")).blocks.map
        Prod.fst) := by
  have h1 : (process_transcript c5payload
      (some [("spk_0", "Alice"), ("spk_1", "Alice")]) (fun _ => "")).blocks.map
      Prod.fst = ["Alice", "Alice"] := by decide
  refine ⟨h1, ?_⟩
  rw [h1]
  intro h
  exact (List.chain'_cons.mp h).1 rfl

/-- Helper: the raw-label keys of `addText` either stay unchanged or gain
the new label at the end. -/
theorem addText_keys (sp c : String) (acc : List (String × List String)) :
    (addText sp c acc).map Prod.fst =
      if sp ∈ acc.map Prod.fst then acc.map Prod.fst
      else acc.map Prod.fst ++ [sp] := by
  induction acc with
  | nil => simp [addText]
  | cons hd tl ih =>
    obtain ⟨k, ws⟩ := hd
    by_cases hk : k = sp
    · subst hk
      simp [addText]
    · have hne : ¬ sp = k := fun h => hk h.symm
      simp only [addText, if_neg hk, List.map_cons, List.mem_cons, hne,
        false_or, ih]
      by_cases hmem : sp ∈ tl.map Prod.fst
      · simp [hmem]
      · simp [hmem]

/-- Helper: the raw-label keys of `speaker_texts` are pairwise distinct —
each raw label owns at most one entry. -/
theorem speakerTexts_keys_nodup (ranges : RangeMap) (items : List WordItem) :
    ((speakerTexts ranges items).map Prod.fst).Nodup := by
  suffices h : ∀ acc : List (String × List String), (acc.map Prod.fst).Nodup →
      ((items.foldl (fun acc it =>
        match matchItem ranges it with
        | some (sp, c) => addText sp c acc
        | none => acc) acc).map Prod.fst).Nodup by
    exact h [] List.nodup_nil
  induction items with
  | nil => intro acc hacc; exact hacc
  | cons it rest ih =>
    intro acc hacc
    simp only [List.foldl_cons]
    cases hmi : matchItem ranges it with
    | none => exact ih acc hacc
    | some p =>
      obtain ⟨sp, c⟩ := p
      refine ih (addText sp c acc) ?_
      rw [addText_keys]
      by_cases hmem : sp ∈ acc.map Prod.fst
      · simpa [hmem] using hacc
      · rw [if_neg hmem]
        rw [List.nodup_append]
        exact ⟨hacc, List.nodup_singleton sp,
          fun a ha hb => hmem ((List.mem_singleton.mp hb) ▸ ha)⟩

/-- Helper: filtering with a key-preserving partial map keeps the key list
a sublist of the original keys. -/
theorem filterMap_keys_sublist {β γ : Type} (f : String × β → Option (String × γ))
    (hf : ∀ p q, f p = some q → q.1 = p.1) (l : List (String × β)) :
    List.Sublist ((l.filterMap f).map Prod.fst) (l.map Prod.fst) := by
  induction l with
  | nil => simp
  | cons hd tl ih =>
    rw [List.filterMap_cons]
    cases hfp : f hd with
    | none =>
      rw [List.map_cons]
      exact ih.cons hd.1
    | some q =>
      rw [List.map_cons, List.map_cons, hf hd q hfp]
      exact ih.cons₂ hd.1

/-- Helper: the ordering key built for a speaker keeps that speaker's raw
label as its first component. -/
theorem orderKey_fst (ranges : RangeMap) (p : String × List String)
    (q : String × ℚ)
    (hpq : (match rangesOf ranges p.1 with
      | some rl => (earliestStart rl).map (fun t => (p.1, t))
      | none => none) = some q) : q.1 = p.1 := by
  cases hro : rangesOf ranges p.1 with
  | none => rw [hro] at hpq; cases hpq
  | some rl =>
    rw [hro] at hpq
    rw [Option.map_eq_some'] at hpq
    obtain ⟨t, _, hqt⟩ := hpq
    rw [← hqt]

/-- C5 (amended): each raw speaker label contributes at most one block to
the assembled transcript — the ordered speaker list has pairwise-distinct
raw labels — but no merging happens across distinct raw labels, even when
the name map sends them to the same display name. -/
theorem C5_label_blocks_nodup (ranges : RangeMap) (items : List WordItem) :
    ((orderedSpeakers ranges (speakerTexts ranges items)).map Prod.fst).Nodup := by
  have h1 := speakerTexts_keys_nodup ranges items
  have h2 := filterMap_keys_sublist
    (fun p : String × List String =>
      match rangesOf ranges p.1 with
      | some rl => (earliestStart rl).map (fun t => (p.1, t))
      | none => none)
    (fun p q hpq => orderKey_fst ranges p q hpq)
    (speakerTexts ranges items)
  have h3 := h2.nodup h1
  have h4 : List.Perm
      ((orderedSpeakers ranges (speakerTexts ranges items)).map Prod.fst)
      (((speakerTexts ranges items).filterMap (fun p =>
        match rangesOf ranges p.1 with
        | some rl => (earliestStart rl).map (fun t => (p.1, t))
        | none => none)).map Prod.fst) :=
    (List.perm_insertionSort sndLe _).map Prod.fst
  exact h4.nodup_iff.mpr h3

/-! ### C9 -/

/-- C9 is false as stated: with the supplied map sending `spk_0` to "Alice",
the degraded single-block fallback attributes the surviving words to
"Alice" (the first speaker name in the map), not to a generic "Speaker"
label. -/
theorem C9_counterexample :
    process_transcript (.withResults c9results) (some [("spk_0", "Alice")])
      (fun _ => "") =
      ⟨[Msg.warnFallback], [("Alice", ["Hello"])], "Alice: Hello"⟩ ∧
    ("Alice" : String) ≠ "Speaker" := by
  constructor
  · decide
  · decide

/-- C9 (amended): when block assembly produces nothing while items are
non-empty, the reconciler emits one undifferentiated block with every
survivable pronunciation word in original item order, attributed to the
display name of the first label of the speaker map ("Speaker" only when
that lookup fails), with a warning; and when no word survives at all the
result is the empty transcript with the same warning, not a failure. -/
theorem C9_fallback (r : Results) (nm : NameMap) (ask : String → String)
    (num : Nat) (segs : List Segment) (msgs : List Msg)
    (hn : normalize r = ⟨some (num, segs), msgs⟩)
    (hskip : ¬(segs = [] ∧ num = 1 ∧ r.items ≠ []))
    (hempty : speakerTexts (buildRanges segs) r.items = [] ∨
      renderBlocks (buildBlocks nm (speakerTexts (buildRanges segs) r.items)
        (orderedSpeakers (buildRanges segs)
          (speakerTexts (buildRanges segs) r.items))) = "")
    (hitems : r.items ≠ []) :
    process_transcript (.withResults r) (some nm) ask =
      if pronWords r.items = [] then ⟨msgs ++ [.warnFallback], [], ""⟩
      else ⟨msgs ++ [.warnFallback], [(fallbackName nm, pronWords r.items)],
        fallbackName nm ++ ": " ++ joinWords (pronWords r.items)⟩ := by
  have hcond : ¬ (speakerTexts (buildRanges segs) r.items ≠ [] ∧
      renderBlocks (buildBlocks nm (speakerTexts (buildRanges segs) r.items)
        (orderedSpeakers (buildRanges segs)
          (speakerTexts (buildRanges segs) r.items))) ≠ "") := by
    rcases hempty with h | h
    · exact fun hc => hc.1 h
    · exact fun hc => hc.2 h
  show processWith r (normalize r) (some nm) ask = _
  rw [hn]
  show processMain r.items num segs nm msgs = _
  rw [processMain]
  rw [if_neg hskip, if_neg hcond, if_pos hitems]
  by_cases hw : pronWords r.items = []
  · rw [if_neg (not_not_intro hw), if_pos hw]
  · rw [if_pos hw, if_neg hw]

/-- Witness for C9 (amended) at concrete data where one unattributable word
survives into the fallback block. -/
theorem C9_witness :
    process_transcript (.withResults c9results) (some [("spk_0", "Zoe")])
      (fun _ => "") =
      ⟨[Msg.warnFallback], [("Zoe", ["Hello"])], "Zoe: Hello"⟩ := by
  have h := C9_fallback c9results [("spk_0", "Zoe")] (fun _ => "") 1
    [⟨some "spk_0", .val 0, .val 1⟩] [] (by decide) (by decide)
    (Or.inl (by decide)) (by decide)
  rw [if_neg (by decide : ¬ pronWords c9results.items = [])] at h
  exact h

/-! ### C6 -/

theorem dminFold_cons (m d : ℚ) (r : ℚ × ℚ) (t : List (ℚ × ℚ)) :
    dminFold m d (r :: t) = dminFold m (min d (distTo m r)) t := rfl

theorem dminFold_min (m : ℚ) (t : List (ℚ × ℚ)) :
    ∀ a b : ℚ, dminFold m (min a b) t = min a (dminFold m b t) := by
  induction t with
  | nil => intro a b; rfl
  | cons x t' ih =>
    intro a b
    show dminFold m (min (min a b) (distTo m x)) t' =
      min a (dminFold m (min b (distTo m x)) t')
    rw [min_assoc, ih]

theorem dminFold_le (m : ℚ) (rl : List (ℚ × ℚ)) :
    ∀ d : ℚ, dminFold m d rl ≤ d := by
  induction rl with
  | nil => intro d; exact le_refl d
  | cons r t ih =>
    intro d
    rw [dminFold_cons]
    exact le_trans (ih _) (min_le_left _ _)

/-- One speaker's inner loop from a finite best: the distance becomes the
`min`-fold, and the speaker changes exactly on strict improvement. -/
theorem nearInner_some (m : ℚ) (s : String) (rl : List (ℚ × ℚ)) :
    ∀ (d0 : ℚ) (s0 : String),
    nearInner m s (some (d0, s0)) rl =
      some (dminFold m d0 rl, if dminFold m d0 rl < d0 then s else s0) := by
  induction rl with
  | nil =>
    intro d0 s0
    simp [nearInner, dminFold, lt_irrefl]
  | cons r t ih =>
    intro d0 s0
    by_cases hd : distTo m r < d0
    · show nearInner m s (if distTo m r < d0 then some (distTo m r, s)
        else some (d0, s0)) t = _
      rw [if_pos hd, ih]
      have hmin : min d0 (distTo m r) = distTo m r :=
        min_eq_right (le_of_lt hd)
      have hlt : dminFold m (distTo m r) t < d0 :=
        lt_of_le_of_lt (dminFold_le m t _) hd
      rw [dminFold_cons, hmin, if_pos hlt, ite_self]
    · show nearInner m s (if distTo m r < d0 then some (distTo m r, s)
        else some (d0, s0)) t = _
      rw [if_neg hd, ih]
      have hmin : min d0 (distTo m r) = d0 := min_eq_left (not_lt.mp hd)
      rw [dminFold_cons, hmin]

/-- One speaker's inner loop from the initial infinite best: the speaker's
own minimum distance wins. -/
theorem nearInner_none (m : ℚ) (s : String) (r : ℚ × ℚ) (t : List (ℚ × ℚ)) :
    nearInner m s none (r :: t) = some (sDist m (r :: t), s) := by
  show nearInner m s (some (distTo m r, s)) t = _
  rw [nearInner_some, ite_self]
  rfl

theorem runMin_cons (m : ℚ) (d0 : ℚ) (s0 : String)
    (q : String × List (ℚ × ℚ)) (rest : RangeMap) :
    runMin m d0 s0 (q :: rest) =
      if sDist m q.2 < d0 then runMin m (sDist m q.2) q.1 rest
      else runMin m d0 s0 rest := rfl

theorem firstMinSpeaker_cons (m : ℚ) (q : String × List (ℚ × ℚ))
    (rest : RangeMap) :
    firstMinSpeaker m (q :: rest) =
      if rest.all (fun p => decide (sDist m q.2 ≤ sDist m p.2)) then some q.1
      else firstMinSpeaker m rest := rfl

/-- The outer fallback loop from a finite best equals the reference
evaluation `runMin`, provided every speaker has at least one range. -/
theorem nearFold_runMin (m : ℚ) : ∀ (l : RangeMap),
    (∀ p ∈ l, p.2 ≠ []) → ∀ (d0 : ℚ) (s0 : String),
    nearFold m (some (d0, s0)) l = some (runMin m d0 s0 l) := by
  intro l
  induction l with
  | nil => intro _ d0 s0; rfl
  | cons p rest ih =>
    intro hwf d0 s0
    obtain ⟨s, rl⟩ := p
    obtain ⟨r, t, rfl⟩ :=
      List.exists_cons_of_ne_nil (hwf (s, rl) (List.mem_cons_self _ _))
    show nearFold m (nearInner m s (some (d0, s0)) (r :: t)) rest = _
    rw [nearInner_some]
    have hmindm : dminFold m d0 (r :: t) = min d0 (sDist m (r :: t)) := by
      show dminFold m (min d0 (distTo m r)) t = _
      rw [dminFold_min]
      rfl
    rw [runMin_cons]
    by_cases hlt : sDist m (r :: t) < d0
    · have h1 : dminFold m d0 (r :: t) = sDist m (r :: t) := by
        rw [hmindm]; exact min_eq_right (le_of_lt hlt)
      have h2 : dminFold m d0 (r :: t) < d0 := by rw [h1]; exact hlt
      rw [h1, if_pos (h1 ▸ h2), if_pos hlt,
        ih (fun q hq => hwf q (List.mem_cons_of_mem _ hq))]
    · have h1 : dminFold m d0 (r :: t) = d0 := by
        rw [hmindm]; exact min_eq_left (not_lt.mp hlt)
      rw [h1, if_neg (lt_irrefl d0), if_neg hlt,
        ih (fun q hq => hwf q (List.mem_cons_of_mem _ hq))]

/-- The nearest-speaker result on a non-empty well-formed range map is the
reference evaluation seeded with the first speaker. -/
theorem nearestSpeaker_runMin (m : ℚ) (s : String) (rl : List (ℚ × ℚ))
    (rest : RangeMap) (hrl : rl ≠ []) (hwf : ∀ p ∈ rest, p.2 ≠ []) :
    nearestSpeaker m ((s, rl) :: rest) =
      some (runMin m (sDist m rl) s rest).2 := by
  obtain ⟨r, t, rfl⟩ := List.exists_cons_of_ne_nil hrl
  show (nearFold m (nearInner m s none (r :: t)) rest).map (fun p => p.2) = _
  rw [nearInner_none, nearFold_runMin m rest hwf]
  rfl

/-- The reference evaluation finds the first speaker at the global minimum:
if the seed distance already beats every listed speaker the seed survives,
otherwise `runMin` lands on exactly the speaker `firstMinSpeaker` names. -/
theorem runMin_firstMin (m : ℚ) : ∀ (l : RangeMap) (d0 : ℚ) (s0 : String),
    (if l.all (fun q => decide (d0 ≤ sDist m q.2)) then
      (runMin m d0 s0 l).2 = s0
    else firstMinSpeaker m l = some (runMin m d0 s0 l).2) := by
  intro l
  induction l with
  | nil => intro d0 s0; simp [runMin]
  | cons q rest ih =>
    intro d0 s0
    by_cases hq : sDist m q.2 < d0
    · have hq' : ¬ d0 ≤ sDist m q.2 := not_le.mpr hq
      rw [if_neg]
      · rw [firstMinSpeaker_cons, runMin_cons, if_pos hq]
        have h2 := ih (sDist m q.2) q.1
        by_cases hall : rest.all (fun p => decide (sDist m q.2 ≤ sDist m p.2))
        · rw [if_pos hall] at h2
          rw [if_pos hall, h2]
        · rw [if_neg hall] at h2
          rw [if_neg hall]
          exact h2
      · rw [List.all_cons]
        simp [hq']
    · have hq' : d0 ≤ sDist m q.2 := not_lt.mp hq
      rw [runMin_cons, if_neg hq]
      by_cases hall : rest.all (fun p => decide (d0 ≤ sDist m p.2))
      · rw [if_pos]
        · have h2 := ih d0 s0
          rw [if_pos hall] at h2
          exact h2
        · rw [List.all_cons, hall]
          simp [hq']
      · rw [if_neg]
        · have h2 := ih d0 s0
          rw [if_neg hall] at h2
          have hqq : ¬ rest.all
              (fun p => decide (sDist m q.2 ≤ sDist m p.2)) := by
            intro hcon
            apply hall
            rw [List.all_eq_true] at hcon ⊢
            intro p hp
            exact decide_eq_true
              (le_trans hq' (of_decide_eq_true (hcon p hp)))
          rw [firstMinSpeaker_cons, if_neg hqq]
          exact h2
        · rw [List.all_cons]
          simp [hall]

/-- On a non-empty well-formed range map the code's fallback loop selects
exactly the speaker the spec describes: the first one attaining the
globally minimal distance. -/
theorem nearestSpeaker_eq_firstMin (m : ℚ) (ranges : RangeMap)
    (hwf : ∀ p ∈ ranges, p.2 ≠ []) :
    nearestSpeaker m ranges = firstMinSpeaker m ranges := by
  cases ranges with
  | nil => rfl
  | cons p rest =>
    obtain ⟨s, rl⟩ := p
    have hrl := hwf (s, rl) (List.mem_cons_self _ _)
    rw [nearestSpeaker_runMin m s rl rest hrl
      (fun q hq => hwf q (List.mem_cons_of_mem _ hq))]
    have h := runMin_firstMin m rest (sDist m rl) s
    rw [firstMinSpeaker_cons]
    by_cases hall : rest.all (fun q => decide (sDist m rl ≤ sDist m q.2))
    · rw [if_pos hall] at h
      rw [if_pos hall, h]
    · rw [if_neg hall] at h
      rw [if_neg hall, h]

theorem firstMinSpeaker_isSome (m : ℚ) : ∀ (l : RangeMap), l ≠ [] →
    ∃ sp, firstMinSpeaker m l = some sp := by
  intro l
  induction l with
  | nil => intro h; exact absurd rfl h
  | cons q rest ih =>
    intro _
    rw [firstMinSpeaker_cons]
    by_cases hall : rest.all (fun p => decide (sDist m q.2 ≤ sDist m p.2))
    · exact ⟨q.1, by rw [if_pos hall]⟩
    · have hrest : rest ≠ [] := by
        intro hr
        rw [hr] at hall
        exact hall rfl
      obtain ⟨sp, hsp⟩ := ih hrest
      exact ⟨sp, by rw [if_neg hall]; exact hsp⟩

/-- No speaker's range contains the midpoint, so the containment scan comes
up empty. -/
theorem findContaining_eq_none (m : ℚ) (ranges : RangeMap)
    (h : ∀ p ∈ ranges, ∀ r ∈ p.2, midContains m r = false) :
    findContaining m ranges = none := by
  induction ranges with
  | nil => rfl
  | cons p rest ih =>
    obtain ⟨s, rl⟩ := p
    rw [findContaining_cons, if_neg, ih]
    · exact fun q hq => h q (List.mem_cons_of_mem _ hq)
    · intro hany
      obtain ⟨r, hr, hc⟩ := List.any_eq_true.mp hany
      rw [h (s, rl) (List.mem_cons_self _ _) r hr] at hc
      cases hc

/-- Appending a range keeps every speaker's range list non-empty. -/
theorem addRange_wf (l : String) (r : ℚ × ℚ) (acc : RangeMap)
    (hacc : ∀ p ∈ acc, p.2 ≠ []) : ∀ p ∈ addRange l r acc, p.2 ≠ [] := by
  induction acc with
  | nil =>
    intro p hp
    rw [addRange, List.mem_singleton] at hp
    rw [hp]
    simp
  | cons hd tl ih =>
    obtain ⟨k, rs⟩ := hd
    intro p hp
    by_cases hk : k = l
    · rw [addRange, if_pos hk] at hp
      rcases List.mem_cons.mp hp with h | h
      · rw [h]
        simp
      · exact hacc p (List.mem_cons_of_mem _ h)
    · rw [addRange, if_neg hk] at hp
      rcases List.mem_cons.mp hp with h | h
      · rw [h]
        exact hacc (k, rs) (List.mem_cons_self _ _)
      · exact ih (fun q hq => hacc q (List.mem_cons_of_mem _ hq)) p h

/-- `speaker_time_ranges` as built by the source never holds an empty range
list — the well-formedness assumption of the fallback analysis holds for
every range map the program constructs. -/
theorem buildRanges_wf (segs : List Segment) :
    ∀ p ∈ buildRanges segs, p.2 ≠ [] := by
  suffices h : ∀ acc : RangeMap, (∀ p ∈ acc, p.2 ≠ []) →
      ∀ p ∈ segs.foldl (fun acc seg =>
        if truthyS seg.speaker_label then
          if tvPresent seg.start_time ∧ tvPresent seg.end_time then
            match tvParse seg.start_time, tvParse seg.end_time,
                seg.speaker_label with
            | some s, some e, some lbl => addRange lbl (s, e) acc
            | _, _, _ => acc
          else acc
        else acc) acc, p.2 ≠ [] by
    exact h [] (fun p hp => absurd hp (List.not_mem_nil p))
  induction segs with
  | nil => intro acc hacc; exact hacc
  | cons seg rest ih =>
    intro acc hacc
    rw [List.foldl_cons]
    refine ih _ ?_
    split
    · split
      · split
        · exact addRange_wf _ _ acc hacc
        · exact hacc
      · exact hacc
    · exact hacc

/-- C6: a pronunciation WordItem with timing, no direct label, and a
midpoint contained in no speaker's segment is assigned by the
nearest-segment fallback to the first speaker (in iteration order)
attaining the globally minimal distance from the midpoint to its
segments. -/
theorem C6_nearest_fallback (ranges : RangeMap) (it : WordItem) (c : String)
    (cs : List String) (s e : ℚ)
    (htype : it.type = "pronunciation") (halt : it.alternatives = c :: cs)
    (hs : tvParse it.start_time = some s) (he : tvParse it.end_time = some e)
    (hnl : truthyS it.speaker_label = false)
    (hnc : ∀ p ∈ ranges, ∀ r ∈ p.2, midContains ((s + e) / 2) r = false)
    (hne : ranges ≠ [])
    (hwf : ∀ p ∈ ranges, p.2 ≠ []) :
    ∃ sp, firstMinSpeaker ((s + e) / 2) ranges = some sp ∧
      matchItem ranges it = some (sp, c) := by
  obtain ⟨sp, hsp⟩ := firstMinSpeaker_isSome ((s + e) / 2) ranges hne
  refine ⟨sp, hsp, ?_⟩
  have hst := tvParse_eq_val hs
  have het := tvParse_eq_val he
  have hfc := findContaining_eq_none ((s + e) / 2) ranges hnc
  have hns : nearestSpeaker ((s + e) / 2) ranges = some sp :=
    (nearestSpeaker_eq_firstMin _ _ hwf).trans hsp
  simp [matchItem, htype, halt, hst, het, tvPresent, tvParse, hnl, hfc, hne,
    hns]

/-- Witness for C6: midpoint 3 of a (2, 4) item, no containing segment;
speaker B (distance 2) beats speaker A (distance 7). -/
theorem C6_witness :
    ∃ sp, firstMinSpeaker (((2 : ℚ) + 4) / 2)
        [("A", [((10 : ℚ), (11 : ℚ))]), ("B", [((0 : ℚ), (1 : ℚ))])] =
        some sp ∧
      matchItem [("A", [((10 : ℚ), (11 : ℚ))]), ("B", [((0 : ℚ), (1 : ℚ))])]
        ⟨"pronunciation", ["w"], .val 2, .val 4, none⟩ = some (sp, "w") := by
  refine C6_nearest_fallback
    [("A", [(10, 11)]), ("B", [(0, 1)])]
    ⟨"pronunciation", ["w"], .val 2, .val 4, none⟩ "w" [] 2 4
    rfl rfl rfl rfl rfl ?_ (by simp) ?_
  · intro p hp r hr
    rcases List.mem_cons.mp hp with h | h
    · rw [h] at hr
      rw [List.mem_singleton.mp hr]
      simp only [midContains]
      rw [decide_eq_false_iff_not]
      intro hcon
      norm_num at hcon
    · rw [List.mem_singleton.mp h] at hr
      rw [List.mem_singleton.mp hr]
      simp only [midContains]
      rw [decide_eq_false_iff_not]
      intro hcon
      norm_num at hcon
  · intro p hp
    rcases List.mem_cons.mp hp with h | h
    · rw [h]
      simp
    · rw [List.mem_singleton.mp h]
      simp

/-! ### C10 -/

/-- Inversion of the matcher: a successful attribution can only come from a
pronunciation item and carries that item's first alternative. -/
theorem matchItem_pron (ranges : RangeMap) (it : WordItem) (sp c : String)
    (h : matchItem ranges it = some (sp, c)) :
    it.type = "pronunciation" ∧ it.alternatives.head? = some c := by
  unfold matchItem at h
  split at h
  · rename_i ht
    refine ⟨ht, ?_⟩
    split at h
    · cases h
    · rename_i c0 cs halt
      rw [halt]
      split at h
      · split at h
        · rw [Option.map_eq_some'] at h
          obtain ⟨x, _, hxe⟩ := h
          have hc0 : c0 = c := congrArg Prod.snd hxe
          rw [hc0]
          rfl
        · cases h
      · cases h
  · cases h

/-- Words already collected stay justified after one `addText`. -/
theorem addText_sound {R : String → Prop} (acc : List (String × List String))
    (sp c : String)
    (hacc : ∀ p ∈ acc, ∀ w ∈ p.2, R w) (hc : R c) :
    ∀ p ∈ addText sp c acc, ∀ w ∈ p.2, R w := by
  induction acc with
  | nil =>
    intro p hp w hw
    rw [addText, List.mem_singleton] at hp
    rw [hp] at hw
    rw [List.mem_singleton.mp hw]
    exact hc
  | cons hd tl ih =>
    obtain ⟨k, ws⟩ := hd
    intro p hp w hw
    by_cases hk : k = sp
    · rw [addText, if_pos hk] at hp
      rcases List.mem_cons.mp hp with h | h
      · rw [h] at hw
        rcases List.mem_append.mp hw with h2 | h2
        · exact hacc (k, ws) (List.mem_cons_self _ _) w h2
        · rw [List.mem_singleton.mp h2]
          exact hc
      · exact hacc p (List.mem_cons_of_mem _ h) w hw
    · rw [addText, if_neg hk] at hp
      rcases List.mem_cons.mp hp with h | h
      · rw [h] at hw
        exact hacc (k, ws) (List.mem_cons_self _ _) w hw
      · exact ih (fun q hq => hacc q (List.mem_cons_of_mem _ hq)) p h w hw

/-- Every word the matching fold collects is justified by `R` as long as the
accumulator is and each processed item's attribution is. -/
theorem foldTexts_sound (ranges : RangeMap) (R : String → Prop) :
    ∀ (items : List WordItem) (acc : List (String × List String)),
    (∀ p ∈ acc, ∀ w ∈ p.2, R w) →
    (∀ it ∈ items, ∀ sp c, matchItem ranges it = some (sp, c) → R c) →
    ∀ p ∈ items.foldl (fun acc it =>
        match matchItem ranges it with
        | some (sp, c) => addText sp c acc
        | none => acc) acc, ∀ w ∈ p.2, R w := by
  intro items
  induction items with
  | nil => intro acc hacc _; exact hacc
  | cons it rest ih =>
    intro acc hacc hitems
    simp only [List.foldl_cons]
    cases hmi : matchItem ranges it with
    | none =>
      exact ih acc hacc (fun x hx => hitems x (List.mem_cons_of_mem _ hx))
    | some pr =>
      obtain ⟨sp, c⟩ := pr
      refine ih (addText sp c acc) ?_
        (fun x hx => hitems x (List.mem_cons_of_mem _ hx))
      exact addText_sound acc sp c hacc
        (hitems it (List.mem_cons_self _ _) sp c hmi)

/-- Every word in `speaker_texts` comes from a pronunciation item of the
input, as its first alternative. -/
theorem speakerTexts_sound (ranges : RangeMap) (items : List WordItem) :
    ∀ p ∈ speakerTexts ranges items, ∀ w ∈ p.2,
      ∃ it, it ∈ items ∧ it.type = "pronunciation" ∧
        it.alternatives.head? = some w := by
  refine foldTexts_sound ranges _ items [] (fun p hp => absurd hp
    (List.not_mem_nil p)) ?_
  intro it hit sp c hmi
  obtain ⟨h1, h2⟩ := matchItem_pron ranges it sp c hmi
  exact ⟨it, hit, h1, h2⟩

/-- Every word of `pronWords` comes from a pronunciation item of the input,
as its first alternative. -/
theorem pronWords_sound (items : List WordItem) (w : String)
    (hw : w ∈ pronWords items) :
    ∃ it, it ∈ items ∧ it.type = "pronunciation" ∧
      it.alternatives.head? = some w := by
  rw [pronWords, List.mem_filterMap] at hw
  obtain ⟨it, hit, hfit⟩ := hw
  by_cases ht : it.type = "pronunciation"
  · rw [if_pos ht] at hfit
    exact ⟨it, hit, ht, hfit⟩
  · rw [if_neg ht] at hfit
    cases hfit

/-- Looking up a speaker's collected words lands on an entry of
`speaker_texts`. -/
theorem textsOf_mem (texts : List (String × List String)) (sp w : String)
    (hw : w ∈ textsOf texts sp) :
    ∃ q, q ∈ texts ∧ w ∈ q.2 := by
  rw [textsOf] at hw
  cases hf : texts.find? (fun p => p.1 == sp) with
  | none =>
    rw [hf] at hw
    cases hw
  | some q =>
    rw [hf] at hw
    exact ⟨q, List.mem_of_find?_eq_some hf, hw⟩

/-- Every word of an assembled block is a collected word of
`speaker_texts`. -/
theorem buildBlocks_words (names : NameMap)
    (texts : List (String × List String)) (ordered : List (String × ℚ))
    (b : String × List String) (hb : b ∈ buildBlocks names texts ordered)
    (w : String) (hw : w ∈ b.2) :
    ∃ q, q ∈ texts ∧ w ∈ q.2 := by
  rw [buildBlocks, List.mem_filterMap] at hb
  obtain ⟨p, _, hfp⟩ := hb
  by_cases hc : pyStrip (joinWords (textsOf texts p.1)) ≠ ""
  · rw [if_pos hc] at hfp
    have hbe : ((lookupName names p.1).getD p.1, textsOf texts p.1) = b :=
      Option.some.inj hfp
    have hb2 : b.2 = textsOf texts p.1 := by rw [← hbe]
    rw [hb2] at hw
    exact textsOf_mem texts p.1 w hw
  · rw [if_neg hc] at hfp
    cases hfp

/-- Every word of every block the main processing emits is the first
alternative of a pronunciation item of the input. -/
theorem processMain_words (items : List WordItem) (num : Nat)
    (segs : List Segment) (names : NameMap) (msgs : List Msg) :
    ∀ b ∈ (processMain items num segs names msgs).blocks, ∀ w ∈ b.2,
      ∃ it, it ∈ items ∧ it.type = "pronunciation" ∧
        it.alternatives.head? = some w := by
  intro b hb w hw
  unfold processMain at hb
  split at hb
  · split at hb
    · rw [List.mem_singleton] at hb
      rw [hb] at hw
      exact pronWords_sound items w hw
    · cases hb
  · split at hb
    · obtain ⟨q, hq, hqw⟩ :=
        buildBlocks_words names (speakerTexts (buildRanges segs) items)
          (orderedSpeakers (buildRanges segs)
            (speakerTexts (buildRanges segs) items)) b hb w hw
      exact speakerTexts_sound (buildRanges segs) items q hq w hqw
    · split at hb
      · split at hb
        · rw [List.mem_singleton] at hb
          rw [hb] at hw
          exact pronWords_sound items w hw
        · cases hb
      · cases hb

/-- Punctuation items contribute nothing to the matcher: filtering them out
leaves `speaker_texts` unchanged. -/
theorem speakerTexts_filter_pron (ranges : RangeMap)
    (items : List WordItem) :
    speakerTexts ranges items =
      speakerTexts ranges
        (items.filter (fun it => it.type == "pronunciation")) := by
  suffices h : ∀ acc : List (String × List String),
      items.foldl (fun acc it =>
        match matchItem ranges it with
        | some (sp, c) => addText sp c acc
        | none => acc) acc =
      (items.filter (fun it => it.type == "pronunciation")).foldl
        (fun acc it =>
          match matchItem ranges it with
          | some (sp, c) => addText sp c acc
          | none => acc) acc by
    exact h []
  induction items with
  | nil => intro acc; rfl
  | cons it rest ih =>
    intro acc
    by_cases ht : it.type = "pronunciation"
    · have hfil : (it :: rest).filter (fun i => i.type == "pronunciation") =
          it :: rest.filter (fun i => i.type == "pronunciation") := by
        simp [List.filter_cons, ht]
      rw [hfil, List.foldl_cons, List.foldl_cons, ih]
    · have hmi : matchItem ranges it = none := by
        rw [matchItem, if_neg ht]
      have hfil : (it :: rest).filter (fun i => i.type == "pronunciation") =
          rest.filter (fun i => i.type == "pronunciation") := by
        simp [List.filter_cons, ht]
      rw [hfil, List.foldl_cons, hmi, ih]

/-- C10: punctuation content never reaches the output — every word in every
emitted block is the first alternative of a pronunciation item of the
payload — and punctuation items influence attribution in no way: filtering
them out leaves the word-to-speaker mapping identical. -/
theorem C10_punctuation_excluded (data : Payload) (names? : Option NameMap)
    (ask : String → String) (ranges : RangeMap) (items : List WordItem) :
    (∀ b ∈ (process_transcript data names? ask).blocks, ∀ w ∈ b.2,
      ∃ it, it ∈ itemsOf data ∧ it.type = "pronunciation" ∧
        it.alternatives.head? = some w) ∧
    speakerTexts ranges items =
      speakerTexts ranges
        (items.filter (fun it => it.type == "pronunciation")) := by
  refine ⟨?_, speakerTexts_filter_pron ranges items⟩
  cases data with
  | noResults =>
    intro b hb
    cases hb
  | withResults r =>
    show ∀ b ∈ (processWith r (normalize r) names? ask).blocks, _
    rw [processWith]
    cases hns : (normalize r).state with
    | none =>
      intro b hb
      cases hb
    | some p =>
      obtain ⟨num, segs⟩ := p
      exact processMain_words r.items num segs
        (resolveNames names? ask num segs r.items) (normalize r).msgs


/-- Witness for C10 at concrete data containing a labelled punctuation item:
the emitted word is traced to a pronunciation item, and filtering the
punctuation out of the item list leaves the matcher's output unchanged. -/
theorem C10_witness :
    (∃ it, it ∈ itemsOf c10payload ∧ it.type = "pronunciation" ∧
      it.alternatives.head? = some "Hello") ∧
    speakerTexts [] (itemsOf c10payload) =
      speakerTexts []
        ((itemsOf c10payload).filter (fun it => it.type == "pronunciation")) := by
  constructor
  · exact (C10_punctuation_excluded c10payload (some [("spk_0", "Speaker")])
      (fun _ => "") [] []).1 ("Speaker", ["Hello"]) (by decide) "Hello"
      (by decide)
  · exact (C10_punctuation_excluded c10payload none (fun _ => "") []
      (itemsOf c10payload)).2

end TranscriptToolkit
